import Mathlib

/-!
Shallow embedding of the Rust program `src/main.rs` of
Rust-SimulatedDistributedClient: a time-bounded concurrent sampler.

Modelling conventions:
- `f64` values are modelled by `F64`: exact rationals extended with a NaN
  sentinel and signed infinities; the two IEEE zeros are conflated.
  Addition and division come in two flavours: exact (`F64.add`, `F64.div`),
  used where no rounding can occur (adding 0.0, NaN propagation, 0/0), and
  a rounding refinement (`F64.addR`, `F64.divR`) that rounds every finite
  result to 53 significant bits as the machine operations do, used where
  the order of evaluation matters. Both follow the IEEE special-value
  rules (`NaN` absorbs, `0/0 = NaN`, nonzero`/0` is a signed infinity).
- The environment of a worker (network, HTTP decoding, string-to-number
  parsing of the `amount` field) is supplied as a trace of `FetchOutcome`
  values, one per loop iteration, together with the elapsed whole seconds
  observed at the guard of that iteration.
- Concurrency: each spawned task runs `simulate_client`; its only shared
  effect is one mutex-guarded `add_average`. The orchestrator joins all
  tasks before reducing, so the final collection is the five local averages
  in some interleaving order; the model appends them in spawn order. With
  exact addition the reduction is order-independent; under the rounding
  refinement it is not, and a concrete permutation pair witnesses that.
- The result file is modelled as `Option String` (`none` = absent), and
  `main`s argument dispatch as a total function into `CliOutcome`, where an
  out-of-bounds `args[2]` index is the `panicked` outcome.
-/

/-- Model of an `f64` value: NaN, a signed infinity (`true` = positive), or
a finite value represented by an exact rational. -/
inductive F64 where
  | nan : F64
  | inf : Bool → F64
  | num : ℚ → F64
deriving DecidableEq

/-- IEEE addition on modelled `f64` values (finite addition is exact). -/
def F64.add : F64 → F64 → F64
  | .nan, _ => .nan
  | _, .nan => .nan
  | .inf s, .inf t => if s = t then .inf s else .nan
  | .inf s, .num _ => .inf s
  | .num _, .inf t => .inf t
  | .num a, .num b => .num (a + b)

/-- IEEE division on modelled `f64` values (finite division is exact;
`0/0` is NaN, nonzero over zero is a signed infinity). -/
def F64.div : F64 → F64 → F64
  | .nan, _ => .nan
  | _, .nan => .nan
  | .inf _, .inf _ => .nan
  | .inf s, .num b => if b < 0 then .inf (!s) else .inf s
  | .num _, .inf _ => .num 0
  | .num a, .num b =>
      if b = 0 then (if a = 0 then .nan else if 0 < a then .inf true else .inf false)
      else .num (a / b)

/-- Rust `{}` (Display) formatting of an `f64`, abstract on finite values;
`NaN` prints as the string `NaN`, as in Rust. -/
def F64.format : F64 → String
  | .nan => "NaN"
  | .inf true => "inf"
  | .inf false => "-inf"
  | .num q => toString q

/-- `struct AggregatorData { averages: Vec<f64> }`. -/
structure AggregatorData where
  averages : List F64
deriving DecidableEq

/-- `AggregatorData::new`. -/
def AggregatorData.new : AggregatorData := ⟨[]⟩

/-- `AggregatorData::add_average`: `self.averages.push(average)`. -/
def AggregatorData.add_average (d : AggregatorData) (average : F64) : AggregatorData :=
  ⟨d.averages ++ [average]⟩

/-- `self.averages.iter().sum::<f64>()`: a left fold of IEEE addition
starting from `0.0`, in iteration order. -/
def sumF64 (l : List F64) : F64 := l.foldl F64.add (F64.num 0)

/-- `AggregatorData::calculate_final_aggregate`: `0.0` on an empty
collection, otherwise the sum divided by the length. Takes `&self`
(read-only): in the model it consumes the state and returns only the
value, leaving `averages` untouched. -/
def AggregatorData.calculate_final_aggregate (d : AggregatorData) : F64 :=
  if d.averages.isEmpty then F64.num 0
  else F64.div (sumF64 d.averages) (F64.num d.averages.length)

/-- Environment outcome of one loop iteration of `simulate_client`:
`netErr` = `client.get(url).send()` returned `Err`;
`decodeErr` = `response.json::<CoinbaseResponse>()` returned `Err`;
`ok pr` = the body decoded, and `pr` is the result of
`message.data.amount.parse::<f64>()` (`none` = parse failure). -/
inductive FetchOutcome where
  | netErr : FetchOutcome
  | decodeErr : FetchOutcome
  | ok : Option F64 → FetchOutcome
deriving DecidableEq

/-- The local accumulator of a worker: `let mut sum = 0.0; let mut count = 0;`. -/
structure ClientAcc where
  sum : F64
  count : ℕ
deriving DecidableEq

/-- One pass through the body of the `while` loop of `simulate_client`,
given the fetch outcome of that iteration. On a network or decode error
nothing happens; on a decoded response, `amount.parse::<f64>().unwrap_or(0.0)`
is added to `sum` and `count` is incremented. -/
def clientStep (s : ClientAcc) (o : FetchOutcome) : ClientAcc :=
  match o with
  | .netErr => s
  | .decodeErr => s
  | .ok pr => ⟨F64.add s.sum (pr.getD (F64.num 0)), s.count + 1⟩

/-- The `while start_time.elapsed().as_secs() < times` loop of
`simulate_client`. Each trace entry carries the elapsed whole seconds
observed at the guard and the fetch outcome of that iteration; the loop
stops at the first guard failure (or when the trace ends). Returns the
final accumulator and the number of iterations executed. -/
def clientLoop (times : ℕ) : ClientAcc → List (ℕ × FetchOutcome) → ClientAcc × ℕ
  | s, [] => (s, 0)
  | s, e :: rest =>
      if e.1 < times then
        ((clientLoop times (clientStep s e.2) rest).1,
         (clientLoop times (clientStep s e.2) rest).2 + 1)
      else (s, 0)

/-- The initial accumulator `sum = 0.0, count = 0`. -/
def initAcc : ClientAcc := ⟨F64.num 0, 0⟩

/-- The accumulator a worker holds when its loop finishes. -/
def clientFinal (times : ℕ) (tr : List (ℕ × FetchOutcome)) : ClientAcc :=
  (clientLoop times initAcc tr).1

/-- How many times the loop body of a worker executed. -/
def clientIters (times : ℕ) (tr : List (ℕ × FetchOutcome)) : ℕ :=
  (clientLoop times initAcc tr).2

/-- `simulate_client`: run the loop, then `let average = sum / count as f64;`.
This value is what the worker sends to the aggregator via `add_average`. -/
def simulate_client (times : ℕ) (tr : List (ℕ × FetchOutcome)) : F64 :=
  F64.div (clientFinal times tr).sum (F64.num (clientFinal times tr).count)

/-- The spawn range `(1..=5)` of `simulate_distributed_client`. -/
def workerIds : List ℕ := List.range' 1 5

/-- `simulate_distributed_client`, given the per-worker environment traces:
spawn a task per id in `workerIds` sharing one aggregator, join them all,
then reduce. Returns the aggregator state at the moment of reduction and
the final aggregate. -/
def simulate_distributed_client (times : ℕ) (tr : ℕ → List (ℕ × FetchOutcome)) :
    AggregatorData × F64 :=
  let agg := workerIds.foldl (fun a i => a.add_average (simulate_client times (tr i))) AggregatorData.new
  (agg, agg.calculate_final_aggregate)

/-- The fixed output path `let file_path = "result.txt";`. -/
def file_path : String := "result.txt"

/-- The persisted text line (without the trailing newline `writeln!` adds). -/
def resultLine (v : F64) : String :=
  "Final aggregate of USD prices of BTC: " ++ F64.format v

/-- `write_final_aggregate_to_file`: opens `result.txt` with
`write(true).create(true).truncate(true)` and writes one line. Modelled as
a transformer of the file contents (`none` = file absent); truncation
means the previous contents are discarded. -/
def write_final_aggregate_to_file (v : F64) (_prev : Option String) : Option String :=
  some (resultLine v ++ "\n")

/-- The file contents after a full cache run over the given traces. -/
def cacheRunFile (times : ℕ) (tr : ℕ → List (ℕ × FetchOutcome)) (prev : Option String) :
    Option String :=
  write_final_aggregate_to_file (simulate_distributed_client times tr).2 prev

/-- Rust `BufRead::lines()` on a whole file: strips one trailing newline,
splits on newlines, and strips a carriage return at the end of each line. -/
def rustLines (c : String) : List String :=
  ((if c.endsWith "\n" then c.dropRight 1 else c).splitOn "\n").map
    (fun l => if l.endsWith "\r" then l.dropRight 1 else l)

/-- Message printed by `read_mode` when `result.txt` does not exist. -/
def msgAbsent : String := "The result.txt file does not exist. Run in cache mode first."

/-- Message printed by `read_mode` when `result.txt` exists but is empty. -/
def msgEmpty : String := "The result.txt file is empty. Run in cache mode first."

/-- `read_mode` over the modelled file state: returns `Except.ok` with the
lines it prints. `metadata` failing (absent file) and a zero-length file
each yield an informational message and `Ok(())`. -/
def read_mode : Option String → Except String (List String)
  | none => .ok [msgAbsent]
  | some c => if c.length = 0 then .ok [msgEmpty] else .ok (rustLines c)

/-- Possible outcomes of the argument dispatch in `main`. -/
inductive CliOutcome where
  | usage : CliOutcome
  | invalidCacheArg : CliOutcome
  | cacheRun : ℕ → CliOutcome
  | readRun : CliOutcome
  | invalidMode : CliOutcome
  | panicked : CliOutcome
deriving DecidableEq

/-- Rust `str::split('=')`, modelled structurally on the character list:
splits at every occurrence of the separator, keeping empty pieces, and an
empty input yields one empty piece. -/
def splitOnChar (c : Char) : List Char → List (List Char)
  | [] => [[]]
  | x :: xs =>
      match splitOnChar c xs with
      | [] => [[]]
      | h :: t => if x = c then [] :: h :: t else (x :: h) :: t

/-- Value of a list of decimal digit characters, most significant first. -/
def digitsVal (l : List Char) : ℕ :=
  l.foldl (fun a c => a * 10 + (c.toNat - 48)) 0

/-- Rust `u64::from_str`: an optional leading `+`, then one or more decimal
digits, value at most `u64::MAX`; anything else is `Err`. -/
def parseU64Chars (l : List Char) : Option ℕ :=
  let ds := match l with
    | [] => []
    | c :: cs => if c = '+' then cs else c :: cs
  if ds.isEmpty = false ∧ ds.all Char.isDigit = true ∧ digitsVal ds < 2 ^ 64
  then some (digitsVal ds) else none

/-- Rust `str::starts_with` on a string pattern: a prefix check. -/
def strStartsWith (s p : String) : Bool := p.data.isPrefixOf s.data

/-- `args[2].split('=').nth(1).and_then(|s| s.parse().ok()).unwrap_or(10)`. -/
def parseTimes (arg : String) : ℕ :=
  (((splitOnChar '=' arg.data)[1]?).bind parseU64Chars).getD 10

/-- The argument dispatch of `main` over `std::env::args()` (index 0 is the
program name). Mirrors the source guards: fewer than two args prints usage;
in cache mode the guard is `args.len() >= 1 && args[2].starts_with("--times=")`,
so a missing `args[2]` is an out-of-bounds index, i.e. a panic. -/
def dispatch (args : List String) : CliOutcome :=
  if args.length < 2 then .usage
  else
    match args[1]? with
    | some "--mode=cache" =>
        if 1 ≤ args.length then
          match args[2]? with
          | none => .panicked
          | some a =>
              if strStartsWith a "--times=" then .cacheRun (parseTimes a)
              else .invalidCacheArg
        else .invalidCacheArg
    | some "--mode=read" => .readRun
    | _ => .invalidMode

/-!
Refinement of the float model with IEEE binary64 rounding. The exact
operations `F64.add` and `F64.div` above are faithful wherever no rounding
occurs (adding 0.0, NaN propagation, 0/0); for order-of-evaluation
questions the machine rounding matters, so the operations below round every
finite result to 53 significant bits, to nearest, ties to even, exactly as
the f64 `+` and `/` of the source do in the normal range (overflow and
subnormal magnitudes are outside everything arising here). The helpers
are fuel-bounded structural recursions (correct below `2 ^ 64`, far above
every significand arising in binary64 arithmetic) so that they can be
evaluated by rewriting.
-/

/-- Binary decomposition of the integer part: `floorAux fuel v` is the
integer part of a nonnegative `v` whenever `v < 2 ^ fuel`. -/
def floorAux : ℕ → ℚ → ℕ
  | 0, _ => 0
  | fuel + 1, v =>
      if (2 : ℚ) ^ fuel ≤ v then 2 ^ fuel + floorAux fuel (v - (2 : ℚ) ^ fuel)
      else floorAux fuel v

/-- Integer part of a nonnegative rational below `2 ^ 64`. -/
def floorPos (v : ℚ) : ℕ := floorAux 64 v

/-- Round a nonnegative rational (below `2 ^ 64`) to the nearest integer,
ties to the even integer. -/
def roundHalfEvenPos (v : ℚ) : ℕ :=
  if v - (floorPos v : ℚ) < 1 / 2 then floorPos v
  else if (1 / 2 : ℚ) < v - (floorPos v : ℚ) then floorPos v + 1
  else if floorPos v % 2 = 0 then floorPos v else floorPos v + 1

/-- Floor of the base-2 logarithm of a rational at least 1 (fuel-bounded,
correct below `2 ^ fuel`). -/
def log2Aux : ℕ → ℚ → ℕ
  | 0, _ => 0
  | fuel + 1, q => if q < 2 then 0 else log2Aux fuel (q / 2) + 1

/-- Floor of the base-2 logarithm of a positive rational (correct for
magnitudes between `2 ^ (-64)` and `2 ^ 64`). -/
def floorLog2Pos (q : ℚ) : ℤ :=
  if 1 ≤ q then (log2Aux 64 q : ℤ)
  else
    if q * (2 : ℚ) ^ log2Aux 64 (1 / q) = 1 then -(log2Aux 64 (1 / q) : ℤ)
    else -(log2Aux 64 (1 / q) : ℤ) - 1

/-- Round a positive rational to 53 significant bits, to nearest, ties to
even: IEEE binary64 rounding of a positive normal-range value. -/
def roundPos (q : ℚ) : ℚ :=
  if 52 ≤ floorLog2Pos q then
    (roundHalfEvenPos (q / (2 : ℚ) ^ (floorLog2Pos q - 52).toNat) : ℚ) *
      (2 : ℚ) ^ (floorLog2Pos q - 52).toNat
  else
    (roundHalfEvenPos (q * (2 : ℚ) ^ (52 - floorLog2Pos q).toNat) : ℚ) /
      (2 : ℚ) ^ (52 - floorLog2Pos q).toNat

/-- IEEE binary64 rounding of an exact rational result: round to nearest,
ties to even, 53 significant bits; rounding is symmetric in the sign. -/
def roundF64 (q : ℚ) : ℚ :=
  if q = 0 then 0 else if q < 0 then -roundPos (-q) else roundPos q

/-- IEEE binary64 addition with rounding: refines the exact `F64.add` by
rounding the finite-sum case, as the machine `+` of the source does. -/
def F64.addR : F64 → F64 → F64
  | .nan, _ => .nan
  | _, .nan => .nan
  | .inf s, .inf t => if s = t then .inf s else .nan
  | .inf s, .num _ => .inf s
  | .num _, .inf t => .inf t
  | .num a, .num b => .num (roundF64 (a + b))

/-- IEEE binary64 division with rounding: refines the exact `F64.div` by
rounding the finite-quotient case, as the machine `/` of the source does. -/
def F64.divR : F64 → F64 → F64
  | .nan, _ => .nan
  | _, .nan => .nan
  | .inf _, .inf _ => .nan
  | .inf s, .num b => if b < 0 then .inf (!s) else .inf s
  | .num _, .inf _ => .num 0
  | .num a, .num b =>
      if b = 0 then (if a = 0 then .nan else if 0 < a then .inf true else .inf false)
      else .num (roundF64 (a / b))

/-- `self.averages.iter().sum::<f64>()` with machine rounding at every
addition. -/
def sumF64R (l : List F64) : F64 := l.foldl F64.addR (F64.num 0)

/-- `AggregatorData::calculate_final_aggregate` with the machine rounding
semantics of the f64 sum and division: the faithful embedding when the
order of additions matters. -/
def AggregatorData.calculate_final_aggregateR (d : AggregatorData) : F64 :=
  if d.averages.isEmpty then F64.num 0
  else F64.divR (sumF64R d.averages) (F64.num d.averages.length)

/-- The binary64 value nearest to 0.1. -/
def d01 : ℚ := 3602879701896397 / 2 ^ 55

/-- The binary64 value nearest to 0.2. -/
def d02 : ℚ := 3602879701896397 / 2 ^ 54

/-- The binary64 value nearest to 0.3. -/
def d03 : ℚ := 5404319552844595 / 2 ^ 54

/-! Helper lemmas about the `F64` model and the embedded operations. -/

theorem F64.add_nan_left (x : F64) : F64.add F64.nan x = F64.nan := by
  cases x <;> rfl

theorem F64.add_nan_right (x : F64) : F64.add x F64.nan = F64.nan := by
  cases x <;> rfl

theorem F64.add_num_zero (x : F64) : F64.add x (F64.num 0) = x := by
  rcases x with _ | s | a <;> simp [F64.add]

theorem F64.add_comm (a b : F64) : F64.add a b = F64.add b a := by
  rcases a with _ | s | x <;> rcases b with _ | t | y <;> simp [F64.add]
  · by_cases h : s = t
    · subst h; simp
    · simp [h, Ne.symm h]
  · exact Rat.add_comm x y

theorem F64.add_assoc (a b c : F64) :
    F64.add (F64.add a b) c = F64.add a (F64.add b c) := by
  rcases a with _ | s | x <;> rcases b with _ | t | y <;> rcases c with _ | u | z <;>
    (try cases s) <;> (try cases t) <;> (try cases u)
  all_goals simp [F64.add, Rat.add_assoc]

instance : RightCommutative F64.add :=
  ⟨fun b a₁ a₂ => by
    rw [F64.add_assoc, F64.add_assoc, F64.add_comm a₁ a₂]⟩

theorem foldl_add_nan (l : List F64) : l.foldl F64.add F64.nan = F64.nan := by
  induction l with
  | nil => rfl
  | cons x xs ih => simpa [F64.add_nan_left] using ih

theorem foldl_add_of_nan_mem (l : List F64) (acc : F64) (h : F64.nan ∈ l) :
    l.foldl F64.add acc = F64.nan := by
  induction l generalizing acc with
  | nil => simp at h
  | cons x xs ih =>
      rcases List.mem_cons.mp h with h1 | h2
      · subst h1
        simpa [F64.add_nan_right] using foldl_add_nan xs
      · exact ih _ h2

theorem sumF64_nan_mem (l : List F64) (h : F64.nan ∈ l) : sumF64 l = F64.nan :=
  foldl_add_of_nan_mem l _ h

theorem foldl_add_map_num (qs : List ℚ) (a : ℚ) :
    (qs.map F64.num).foldl F64.add (F64.num a) = F64.num (a + qs.sum) := by
  induction qs generalizing a with
  | nil => simp
  | cons q qs ih =>
      simp only [List.map_cons, List.foldl_cons, F64.add, ih, List.sum_cons, add_assoc]

theorem sumF64_map_num (qs : List ℚ) : sumF64 (qs.map F64.num) = F64.num qs.sum := by
  simpa using foldl_add_map_num qs 0

theorem clientLoop_sum_zero_of_count_zero (times : ℕ) (tr : List (ℕ × FetchOutcome))
    (s : ClientAcc) (hs : s.count = 0 → s.sum = F64.num 0)
    (h : (clientLoop times s tr).1.count = 0) :
    (clientLoop times s tr).1.sum = F64.num 0 := by
  induction tr generalizing s with
  | nil => exact hs h
  | cons e rest ih =>
      obtain ⟨t, o⟩ := e
      by_cases hg : t < times
      · simp only [clientLoop, hg, if_pos] at h ⊢
        refine ih (clientStep s o) ?_ h
        cases o with
        | netErr => exact fun hc => hs hc
        | decodeErr => exact fun hc => hs hc
        | ok pr => intro hc; simp [clientStep] at hc
      · simp only [clientLoop, hg, if_neg, not_false_iff] at h ⊢
        exact hs h

theorem clientLoop_times_zero (tr : List (ℕ × FetchOutcome)) (s : ClientAcc) :
    clientLoop 0 s tr = (s, 0) := by
  cases tr with
  | nil => rfl
  | cons e rest => simp [clientLoop]

theorem simulate_client_times_zero (tr : List (ℕ × FetchOutcome)) :
    simulate_client 0 tr = F64.nan := by
  simp [simulate_client, clientFinal, clientLoop_times_zero, initAcc, F64.div]

theorem foldl_add_average (ids : List ℕ) (f : ℕ → F64) (a : AggregatorData) :
    (ids.foldl (fun d i => d.add_average (f i)) a).averages = a.averages ++ ids.map f := by
  induction ids generalizing a with
  | nil => simp
  | cons i rest ih =>
      rw [List.foldl_cons, ih]
      simp [AggregatorData.add_average]

theorem foldl_add_average_values (l : List F64) (a : AggregatorData) :
    (l.foldl AggregatorData.add_average a).averages = a.averages ++ l := by
  induction l generalizing a with
  | nil => simp
  | cons v rest ih =>
      rw [List.foldl_cons, ih]
      simp [AggregatorData.add_average]

theorem F64.div_nan_left (x : F64) : F64.div F64.nan x = F64.nan := by
  cases x <;> rfl

theorem simulate_distributed_client_averages (times : ℕ) (tr : ℕ → List (ℕ × FetchOutcome)) :
    (simulate_distributed_client times tr).1.averages =
      workerIds.map (fun i => simulate_client times (tr i)) := by
  show (workerIds.foldl (fun a i => a.add_average (simulate_client times (tr i)))
      AggregatorData.new).averages = _
  rw [foldl_add_average]
  simp [AggregatorData.new]

theorem simulate_distributed_client_snd (times : ℕ) (tr : ℕ → List (ℕ × FetchOutcome)) :
    (simulate_distributed_client times tr).2 =
      (simulate_distributed_client times tr).1.calculate_final_aggregate := rfl

/-! Claim theorems. -/

/-- C1 counterexample: a decoded response whose amount string fails to parse
is not skipped: starting from the initial accumulator, the attempt changes
the local count from 0 to 1. -/
theorem C1_counterexample :
    (clientStep initAcc (FetchOutcome.ok none)).count = 1 ∧ initAcc.count = 0 := by
  constructor <;> rfl

/-- C1 (amended): a network failure or a JSON-decode failure skips the
sample, leaving sum and count unchanged; but an amount string that fails to
parse as a number is treated as a sample of value `0.0`: the sum is
unchanged (0.0 is added to it) while the count IS incremented. -/
theorem C1_parse_failure_is_counted (s : ClientAcc) :
    clientStep s FetchOutcome.netErr = s ∧
    clientStep s FetchOutcome.decodeErr = s ∧
    clientStep s (FetchOutcome.ok none) = ⟨s.sum, s.count + 1⟩ := by
  refine ⟨rfl, rfl, ?_⟩
  show (⟨F64.add s.sum (F64.num 0), s.count + 1⟩ : ClientAcc) = _
  rw [F64.add_num_zero]

/-- C2: `calculate_final_aggregate` returns `0.0` on an empty collection,
returns the sum of the appended values divided by their number otherwise
(for finite values, exactly the arithmetic mean), and, taking `&self`, it
leaves the collection unchanged (it is a pure function of the state in this
embedding). -/
theorem C2_reduce_is_mean :
    (∀ d : AggregatorData, d.averages = [] → d.calculate_final_aggregate = F64.num 0) ∧
    (∀ d : AggregatorData, d.averages ≠ [] →
      d.calculate_final_aggregate = F64.div (sumF64 d.averages) (F64.num d.averages.length)) ∧
    (∀ qs : List ℚ, qs ≠ [] →
      (AggregatorData.mk (qs.map F64.num)).calculate_final_aggregate =
        F64.num (qs.sum / qs.length)) := by
  refine ⟨?_, ?_, ?_⟩
  · intro d h
    simp [AggregatorData.calculate_final_aggregate, h]
  · intro d h
    simp [AggregatorData.calculate_final_aggregate, h]
  · intro qs h
    have hne : qs.map F64.num ≠ [] := by simpa using h
    have hlen : ((qs.length : ℚ)) ≠ 0 := by
      exact_mod_cast fun hh => h (List.length_eq_zero.mp (by exact_mod_cast hh))
    simp [AggregatorData.calculate_final_aggregate, hne, sumF64_map_num, F64.div, hlen]

/-- C2 witness: reducing the appended values 3 and 5 yields exactly 4. -/
theorem C2_reduce_is_mean_witness :
    ([3, 5] : List ℚ) ≠ [] ∧
    (AggregatorData.mk (([3, 5] : List ℚ).map F64.num)).calculate_final_aggregate =
      F64.num 4 := by
  refine ⟨by decide, ?_⟩
  have h := C2_reduce_is_mean.2.2 [3, 5] (by decide)
  norm_num at h
  exact h

/-- C3: a worker whose loop finishes with count 0 computes a NaN local
average, and a collection containing NaN reduces to NaN (no crash, no
suppression). -/
theorem C3_nan_propagation :
    (∀ (times : ℕ) (tr : List (ℕ × FetchOutcome)),
      (clientFinal times tr).count = 0 → simulate_client times tr = F64.nan) ∧
    (∀ d : AggregatorData, F64.nan ∈ d.averages →
      d.calculate_final_aggregate = F64.nan) := by
  constructor
  · intro times tr h
    have hsum : (clientFinal times tr).sum = F64.num 0 :=
      clientLoop_sum_zero_of_count_zero times tr initAcc (fun _ => rfl) h
    simp [simulate_client, hsum, h, F64.div]
  · intro d h
    have hne : d.averages ≠ [] := List.ne_nil_of_mem h
    have hsum := sumF64_nan_mem d.averages h
    simp [AggregatorData.calculate_final_aggregate, hne, hsum, F64.div_nan_left]

/-- C3 witness: the empty trace gives count 0 and a NaN average, and the
singleton NaN collection reduces to NaN. -/
theorem C3_nan_propagation_witness :
    (clientFinal 7 []).count = 0 ∧ simulate_client 7 [] = F64.nan ∧
    F64.nan ∈ (AggregatorData.mk [F64.nan]).averages ∧
    (AggregatorData.mk [F64.nan]).calculate_final_aggregate = F64.nan := by
  refine ⟨rfl, C3_nan_propagation.1 7 [] rfl, by decide, ?_⟩
  exact C3_nan_propagation.2 (AggregatorData.mk [F64.nan]) (by decide)

/-- C4: a cache run spawns a worker per id in `(1..=5)` (exactly five,
distinct ids 1 through 5), each contributes its local average exactly once,
and the collection reduced at the end holds exactly those five values. -/
theorem C4_five_workers (times : ℕ) (tr : ℕ → List (ℕ × FetchOutcome)) :
    workerIds = [1, 2, 3, 4, 5] ∧
    workerIds.Nodup ∧
    (simulate_distributed_client times tr).1.averages =
      workerIds.map (fun i => simulate_client times (tr i)) ∧
    (simulate_distributed_client times tr).1.averages.length = 5 := by
  refine ⟨by decide, by decide, simulate_distributed_client_averages times tr, ?_⟩
  rw [simulate_distributed_client_averages, List.length_map]
  rfl

/-- C5: with `--times=0` the loop guard `elapsed < 0` never holds, so every
worker executes its body zero times, each contributes NaN, the reduction is
NaN, and the persisted line reads `Final aggregate of USD prices of BTC: NaN`. -/
theorem C5_zero_duration (tr : ℕ → List (ℕ × FetchOutcome)) (prev : Option String) :
    (∀ i, clientIters 0 (tr i) = 0) ∧
    (simulate_distributed_client 0 tr).2 = F64.nan ∧
    cacheRunFile 0 tr prev = some (resultLine F64.nan ++ "\n") ∧
    resultLine F64.nan = "Final aggregate of USD prices of BTC: NaN" := by
  have hagg : (simulate_distributed_client 0 tr).1.averages =
      [F64.nan, F64.nan, F64.nan, F64.nan, F64.nan] := by
    rw [simulate_distributed_client_averages]
    simp [simulate_client_times_zero, workerIds]
  have hd : (simulate_distributed_client 0 tr).1 =
      AggregatorData.mk [F64.nan, F64.nan, F64.nan, F64.nan, F64.nan] := by
    rw [show (simulate_distributed_client 0 tr).1 =
      AggregatorData.mk (simulate_distributed_client 0 tr).1.averages from rfl, hagg]
  have hfin : (simulate_distributed_client 0 tr).2 = F64.nan := by
    rw [simulate_distributed_client_snd, hd]
    decide
  refine ⟨?_, hfin, ?_, rfl⟩
  · intro i
    simp [clientIters, clientLoop_times_zero]
  · show write_final_aggregate_to_file (simulate_distributed_client 0 tr).2 prev = _
    rw [hfin]
    rfl

/-- C6 (amended): when the additions and the final division are exact (no
rounding occurs), the reduction is order-independent: appending any
permutation of a multiset of values to a fresh aggregator yields the same
final aggregate. Under the machine rounding of the source the result can
depend on the order, so the unscoped claim fails; the counterexample below
exhibits a permutation pair with different reduce results. -/
theorem C6_order_independent (l₁ l₂ : List F64) (h : l₁.Perm l₂) :
    (l₁.foldl AggregatorData.add_average AggregatorData.new).calculate_final_aggregate =
    (l₂.foldl AggregatorData.add_average AggregatorData.new).calculate_final_aggregate := by
  have e1 : l₁.foldl AggregatorData.add_average AggregatorData.new = AggregatorData.mk l₁ := by
    rw [show l₁.foldl AggregatorData.add_average AggregatorData.new =
      AggregatorData.mk (l₁.foldl AggregatorData.add_average AggregatorData.new).averages
      from rfl, foldl_add_average_values]
    simp [AggregatorData.new]
  have e2 : l₂.foldl AggregatorData.add_average AggregatorData.new = AggregatorData.mk l₂ := by
    rw [show l₂.foldl AggregatorData.add_average AggregatorData.new =
      AggregatorData.mk (l₂.foldl AggregatorData.add_average AggregatorData.new).averages
      from rfl, foldl_add_average_values]
    simp [AggregatorData.new]
  rw [e1, e2]
  have hsum : sumF64 l₁ = sumF64 l₂ := h.foldl_eq (F64.num 0)
  have hlen : l₁.length = l₂.length := h.length_eq
  by_cases hnil : l₁ = []
  · subst hnil
    have : l₂ = [] := h.symm.eq_nil
    subst this
    rfl
  · have hnil2 : l₂ ≠ [] := by
      intro hh
      subst hh
      exact hnil h.eq_nil
    simp [AggregatorData.calculate_final_aggregate, hnil, hnil2, hsum, hlen]

/-- C6 witness: the two orders of appending 1.0 and 2.0 reduce equally. -/
theorem C6_order_independent_witness :
    [F64.num 1, F64.num 2].Perm [F64.num 2, F64.num 1] ∧
    ([F64.num 1, F64.num 2].foldl AggregatorData.add_average
        AggregatorData.new).calculate_final_aggregate =
      ([F64.num 2, F64.num 1].foldl AggregatorData.add_average
        AggregatorData.new).calculate_final_aggregate := by
  have hp : [F64.num 1, F64.num 2].Perm [F64.num 2, F64.num 1] := List.Perm.swap _ _ _
  exact ⟨hp, C6_order_independent _ _ hp⟩

/-- C7: a cache run persists exactly the single line
`Final aggregate of USD prices of BTC: <float>` (plus the newline added by
`writeln!`) to the fixed path `result.txt`, and the resulting contents do
not depend on the previous contents of the file (truncation). -/
theorem C7_persist_overwrites (times : ℕ) (tr : ℕ → List (ℕ × FetchOutcome))
    (v : F64) (prev prev2 : Option String) :
    file_path = "result.txt" ∧
    resultLine v = "Final aggregate of USD prices of BTC: " ++ F64.format v ∧
    write_final_aggregate_to_file v prev = some (resultLine v ++ "\n") ∧
    write_final_aggregate_to_file v prev = write_final_aggregate_to_file v prev2 ∧
    cacheRunFile times tr prev =
      some (resultLine (simulate_distributed_client times tr).2 ++ "\n") :=
  ⟨rfl, rfl, rfl, rfl, rfl⟩

/-- C8: read mode returns success on every modelled file state; an absent
file and an empty file produce distinct informational messages. -/
theorem C8_read_never_fails :
    (∀ fs : Option String, ∃ out, read_mode fs = Except.ok out) ∧
    read_mode none = Except.ok [msgAbsent] ∧
    read_mode (some "") = Except.ok [msgEmpty] ∧
    msgAbsent ≠ msgEmpty := by
  refine ⟨?_, rfl, rfl, by decide⟩
  intro fs
  cases fs with
  | none => exact ⟨[msgAbsent], rfl⟩
  | some c =>
      by_cases h : c.length = 0
      · exact ⟨[msgEmpty], by simp [read_mode, h]⟩
      · exact ⟨rustLines c, by simp [read_mode, h]⟩

/-- C9: invoking cache mode with no further argument evaluates `args[2]`
under the guard `args.len() >= 1`, which passes with two arguments, so the
index is out of bounds and the dispatch panics instead of printing a
usage message. -/
theorem C9_missing_times_panics (args : List String)
    (h1 : args.length = 2) (h2 : args[1]? = some "--mode=cache") :
    dispatch args = CliOutcome.panicked := by
  have hlt : ¬ args.length < 2 := by omega
  have h3 : args[2]? = none := List.getElem?_eq_none (by omega)
  simp [dispatch, hlt, h2, h3, h1]

/-- C9 witness: the concrete invocation with only `--mode=cache` panics. -/
theorem C9_missing_times_panics_witness :
    dispatch ["simple", "--mode=cache"] = CliOutcome.panicked :=
  C9_missing_times_panics ["simple", "--mode=cache"] rfl rfl

/-- C10: a `--times=` argument whose value does not parse as an unsigned
integer is not reported as an error: the duration silently defaults to 10
and the sampling run proceeds. -/
theorem C10_bad_times_defaults (s : String)
    (h1 : strStartsWith s "--times=" = true)
    (h2 : ((splitOnChar '=' s.data)[1]?).bind parseU64Chars = none) :
    dispatch ["simple", "--mode=cache", s] = CliOutcome.cacheRun 10 := by
  simp [dispatch, h1, parseTimes, h2]

/-- C10 witness: `--times=abc` runs cache mode with the default 10. -/
theorem C10_bad_times_defaults_witness :
    (strStartsWith "--times=abc" "--times=" = true) ∧
    (((splitOnChar '=' "--times=abc".data)[1]?).bind parseU64Chars = none) ∧
    dispatch ["simple", "--mode=cache", "--times=abc"] = CliOutcome.cacheRun 10 := by
  refine ⟨by decide, by decide, C10_bad_times_defaults "--times=abc" (by decide) (by decide)⟩

theorem floorAux_le (fuel : ℕ) (v : ℚ) (h0 : 0 ≤ v) (hlt : v < (2 : ℚ) ^ fuel) :
    ((floorAux fuel v : ℕ) : ℚ) ≤ v ∧ v < ((floorAux fuel v : ℕ) : ℚ) + 1 := by
  induction fuel generalizing v with
  | zero =>
      simp only [floorAux, Nat.cast_zero]
      norm_num at hlt
      exact ⟨h0, by linarith⟩
  | succ fuel ih =>
      rw [floorAux]
      by_cases hc : (2 : ℚ) ^ fuel ≤ v
      · have hvlt : v - (2 : ℚ) ^ fuel < (2 : ℚ) ^ fuel := by
          rw [pow_succ] at hlt
          linarith
        obtain ⟨ha, hb⟩ := ih (v - (2 : ℚ) ^ fuel) (by linarith) hvlt
        rw [if_pos hc]
        push_cast
        constructor <;> linarith
      · rw [if_neg hc]
        exact ih v h0 (not_le.mp hc)

theorem floorPos_eq (v : ℚ) (n : ℕ) (h1 : (n : ℚ) ≤ v) (h2 : v < (n : ℚ) + 1)
    (hb : v < (2 : ℚ) ^ 64) : floorPos v = n := by
  have h0 : 0 ≤ v := le_trans (by positivity) h1
  obtain ⟨ha, hb2⟩ := floorAux_le 64 v h0 hb
  have c1 : ((floorPos v : ℕ) : ℚ) < (n : ℚ) + 1 := lt_of_le_of_lt ha h2
  have c2 : (n : ℚ) < ((floorPos v : ℕ) : ℚ) + 1 := lt_of_le_of_lt h1 hb2
  have d1 : floorPos v < n + 1 := by exact_mod_cast c1
  have d2 : n < floorPos v + 1 := by exact_mod_cast c2
  omega

theorem roundHalfEvenPos_down (v : ℚ) (n : ℕ) (h1 : (n : ℚ) ≤ v)
    (h2 : v - n < 1 / 2) (hb : v < (2 : ℚ) ^ 64) :
    roundHalfEvenPos v = n := by
  have hf : floorPos v = n := floorPos_eq v n h1 (by linarith) hb
  rw [roundHalfEvenPos, hf, if_pos h2]

theorem roundHalfEvenPos_up (v : ℚ) (n : ℕ) (h1 : (n : ℚ) ≤ v)
    (h2 : 1 / 2 < v - n) (h3 : v < (n : ℚ) + 1) (hb : v < (2 : ℚ) ^ 64) :
    roundHalfEvenPos v = n + 1 := by
  have hf : floorPos v = n := floorPos_eq v n h1 h3 hb
  have hns : ¬ (v - (n : ℚ) < 1 / 2) := by linarith
  rw [roundHalfEvenPos, hf, if_neg hns, if_pos h2]

theorem roundHalfEvenPos_tie (v : ℚ) (n : ℕ) (heq : v = (n : ℚ) + 1 / 2)
    (hb : v < (2 : ℚ) ^ 64) :
    roundHalfEvenPos v = if n % 2 = 0 then n else n + 1 := by
  have hf : floorPos v = n := floorPos_eq v n (by rw [heq]; linarith) (by rw [heq]; linarith) hb
  have hn1 : ¬ (v - (n : ℚ) < 1 / 2) := by rw [heq]; norm_num
  have hn2 : ¬ ((1 / 2 : ℚ) < v - n) := by rw [heq]; norm_num
  rw [roundHalfEvenPos, hf, if_neg hn1, if_neg hn2]

theorem log2Aux_spec (fuel : ℕ) (q : ℚ) (h1 : 1 ≤ q) (hlt : q < (2 : ℚ) ^ fuel) :
    (2 : ℚ) ^ log2Aux fuel q ≤ q ∧ q < (2 : ℚ) ^ (log2Aux fuel q + 1) := by
  induction fuel generalizing q with
  | zero =>
      norm_num at hlt
      linarith
  | succ fuel ih =>
      rw [log2Aux]
      by_cases hc : q < 2
      · rw [if_pos hc]
        simpa using ⟨h1, hc⟩
      · rw [if_neg hc]
        have hq2 : (2 : ℚ) ≤ q := not_lt.mp hc
        have hh1 : (1 : ℚ) ≤ q / 2 := by linarith
        have hh2 : q / 2 < (2 : ℚ) ^ fuel := by
          rw [pow_succ] at hlt
          linarith
        obtain ⟨ha, hb⟩ := ih (q / 2) hh1 hh2
        constructor
        · rw [pow_succ]
          linarith
        · have hb2 : q / 2 < (2 : ℚ) ^ log2Aux fuel (q / 2) * 2 := by
            rw [pow_succ] at hb
            exact hb
          rw [pow_succ, pow_succ]
          linarith

theorem floorLog2Pos_neg (q : ℚ) (E : ℕ)
    (h0 : 0 < q) (h1 : q < 1)
    (hlo : 1 ≤ q * (2 : ℚ) ^ E) (hhi : q * (2 : ℚ) ^ E < 2)
    (hb : 1 / q < (2 : ℚ) ^ 64) :
    floorLog2Pos q = -(E : ℤ) := by
  have hq1 : ¬ 1 ≤ q := not_le.mpr h1
  rw [floorLog2Pos, if_neg hq1]
  have hinv1 : (1 : ℚ) ≤ 1 / q := by
    rw [le_div_iff h0]
    linarith
  obtain ⟨hs1, hs2⟩ := log2Aux_spec 64 (1 / q) hinv1 hb
  have hE1 : 1 / q ≤ (2 : ℚ) ^ E := by
    rw [div_le_iff h0]
    linarith [mul_comm q ((2 : ℚ) ^ E)]
  have hq0 : q ≠ 0 := ne_of_gt h0
  have hE2 : (2 : ℚ) ^ E < 2 * (1 / q) := by
    have h2q : (2 : ℚ) * (1 / q) = 2 / q := by ring
    rw [h2q, lt_div_iff h0]
    linarith [mul_comm q ((2 : ℚ) ^ E)]
  by_cases hex : q * (2 : ℚ) ^ log2Aux 64 (1 / q) = 1
  · rw [if_pos hex]
    have heq : (1 : ℚ) / q = (2 : ℚ) ^ log2Aux 64 (1 / q) := by
      rw [div_eq_iff hq0]
      linarith [hex]
    have p1 : (2 : ℚ) ^ log2Aux 64 (1 / q) ≤ (2 : ℚ) ^ E := heq ▸ hE1
    have p2 : (2 : ℚ) ^ E < (2 : ℚ) ^ (log2Aux 64 (1 / q) + 1) := by
      rw [pow_succ]
      rw [heq] at hE2
      linarith
    have q1 : log2Aux 64 (1 / q) ≤ E := by
      exact_mod_cast (pow_le_pow_iff_right one_lt_two).mp p1
    have q2 : E < log2Aux 64 (1 / q) + 1 := by
      exact_mod_cast (pow_lt_pow_iff_right one_lt_two).mp p2
    have : log2Aux 64 (1 / q) = E := by omega
    rw [this]
  · rw [if_neg hex]
    have hstrict : (2 : ℚ) ^ log2Aux 64 (1 / q) < 1 / q := by
      rcases lt_or_eq_of_le hs1 with h | h
      · exact h
      · exfalso
        apply hex
        rw [h]
        field_simp
    have p1 : (2 : ℚ) ^ log2Aux 64 (1 / q) < (2 : ℚ) ^ E := lt_of_lt_of_le hstrict hE1
    have p2 : (2 : ℚ) ^ E < (2 : ℚ) ^ (log2Aux 64 (1 / q) + 2) := by
      have : (2 : ℚ) ^ (log2Aux 64 (1 / q) + 2) = 2 * (2 : ℚ) ^ (log2Aux 64 (1 / q) + 1) := by
        ring
      rw [this]
      linarith
    have q1 : log2Aux 64 (1 / q) < E := (pow_lt_pow_iff_right one_lt_two).mp p1
    have q2 : E < log2Aux 64 (1 / q) + 2 := (pow_lt_pow_iff_right one_lt_two).mp p2
    have : E = log2Aux 64 (1 / q) + 1 := by omega
    rw [this]
    push_cast
    ring

theorem roundF64_eval_small (q : ℚ) (E n : ℕ)
    (h0 : 0 < q) (h1 : q < 1)
    (hlo : 1 ≤ q * (2 : ℚ) ^ E) (hhi : q * (2 : ℚ) ^ E < 2)
    (hb : 1 / q < (2 : ℚ) ^ 64)
    (hn : roundHalfEvenPos (q * (2 : ℚ) ^ (52 + E)) = n) :
    roundF64 q = (n : ℚ) / (2 : ℚ) ^ (52 + E) := by
  have hne : ¬ q = 0 := ne_of_gt h0
  have hneg : ¬ q < 0 := not_lt.mpr h0.le
  rw [roundF64, if_neg hne, if_neg hneg, roundPos, floorLog2Pos_neg q E h0 h1 hlo hhi hb]
  have he : ¬ (52 : ℤ) ≤ -(E : ℤ) := by omega
  rw [if_neg he]
  have ht : ((52 : ℤ) - -(E : ℤ)).toNat = 52 + E := by omega
  rw [ht, hn]


/-- C6 counterexample: under the machine rounding that the f64 additions
and division of the source actually perform, appending the binary64 values
nearest 0.1, 0.2, 0.3 to a fresh aggregator and reducing gives a different
result than appending the same multiset in the reverse order: the left-fold
sum rounds differently, so reduce is not order-independent on the real
float semantics. -/
theorem C6_counterexample :
    [F64.num d01, F64.num d02, F64.num d03].Perm
      [F64.num d03, F64.num d02, F64.num d01] ∧
    ([F64.num d01, F64.num d02, F64.num d03].foldl
        AggregatorData.add_average AggregatorData.new).calculate_final_aggregateR ≠
      ([F64.num d03, F64.num d02, F64.num d01].foldl
        AggregatorData.add_average AggregatorData.new).calculate_final_aggregateR := by
  have hr1 : roundF64 d01 = d01 := by
    have hrhe : roundHalfEvenPos (d01 * (2 : ℚ) ^ (52 + 4)) = 7205759403792794 :=
      roundHalfEvenPos_down _ 7205759403792794
        (by norm_num [d01]) (by norm_num [d01]) (by norm_num [d01])
    have h := roundF64_eval_small d01 4 7205759403792794
      (by norm_num [d01]) (by norm_num [d01]) (by norm_num [d01])
      (by norm_num [d01]) (by norm_num [d01]) hrhe
    rw [h]
    norm_num [d01]
  have hr2 : roundF64 (d01 + d02) = 5404319552844596 / 2 ^ 54 := by
    have hrhe : roundHalfEvenPos ((d01 + d02) * (2 : ℚ) ^ (52 + 2)) = 5404319552844596 := by
      have h := roundHalfEvenPos_tie ((d01 + d02) * (2 : ℚ) ^ (52 + 2)) 5404319552844595
        (by norm_num [d01, d02]) (by norm_num [d01, d02])
      rw [if_neg (by norm_num)] at h
      exact h.trans (by norm_num)
    have h := roundF64_eval_small (d01 + d02) 2 5404319552844596
      (by norm_num [d01, d02]) (by norm_num [d01, d02]) (by norm_num [d01, d02])
      (by norm_num [d01, d02]) (by norm_num [d01, d02]) hrhe
    rw [h]
    norm_num
  have hr3 : roundF64 (5404319552844596 / 2 ^ 54 + d03) = 5404319552844596 / 2 ^ 53 := by
    have hrhe : roundHalfEvenPos ((5404319552844596 / 2 ^ 54 + d03) * (2 : ℚ) ^ (52 + 1)) =
        5404319552844596 := by
      have h := roundHalfEvenPos_tie ((5404319552844596 / 2 ^ 54 + d03) * (2 : ℚ) ^ (52 + 1))
        5404319552844595 (by norm_num [d03]) (by norm_num [d03])
      rw [if_neg (by norm_num)] at h
      exact h.trans (by norm_num)
    have h := roundF64_eval_small (5404319552844596 / 2 ^ 54 + d03) 1 5404319552844596
      (by norm_num [d03]) (by norm_num [d03]) (by norm_num [d03])
      (by norm_num [d03]) (by norm_num [d03]) hrhe
    rw [h]
    norm_num
  have hr4 : roundF64 (5404319552844596 / 2 ^ 53 / ((3 : ℕ) : ℚ)) =
      7205759403792795 / 2 ^ 55 := by
    have hrhe : roundHalfEvenPos ((5404319552844596 / 2 ^ 53 / ((3 : ℕ) : ℚ)) * (2 : ℚ) ^ (52 + 3)) =
        7205759403792795 := by
      have h := roundHalfEvenPos_up
        ((5404319552844596 / 2 ^ 53 / ((3 : ℕ) : ℚ)) * (2 : ℚ) ^ (52 + 3)) 7205759403792794
        (by norm_num) (by norm_num) (by norm_num) (by norm_num)
      exact h.trans (by norm_num)
    have h := roundF64_eval_small (5404319552844596 / 2 ^ 53 / ((3 : ℕ) : ℚ)) 3 7205759403792795
      (by norm_num) (by norm_num) (by norm_num) (by norm_num) (by norm_num) hrhe
    rw [h]
    norm_num
  have hr5 : roundF64 d03 = d03 := by
    have hrhe : roundHalfEvenPos (d03 * (2 : ℚ) ^ (52 + 2)) = 5404319552844595 :=
      roundHalfEvenPos_down _ 5404319552844595
        (by norm_num [d03]) (by norm_num [d03]) (by norm_num [d03])
    have h := roundF64_eval_small d03 2 5404319552844595
      (by norm_num [d03]) (by norm_num [d03]) (by norm_num [d03])
      (by norm_num [d03]) (by norm_num [d03]) hrhe
    rw [h]
    norm_num [d03]
  have hr6 : roundF64 (d03 + d02) = 1 / 2 := by
    have hrhe : roundHalfEvenPos ((d03 + d02) * (2 : ℚ) ^ (52 + 1)) = 4503599627370496 :=
      roundHalfEvenPos_down _ 4503599627370496
        (by norm_num [d03, d02]) (by norm_num [d03, d02]) (by norm_num [d03, d02])
    have h := roundF64_eval_small (d03 + d02) 1 4503599627370496
      (by norm_num [d03, d02]) (by norm_num [d03, d02]) (by norm_num [d03, d02])
      (by norm_num [d03, d02]) (by norm_num [d03, d02]) hrhe
    rw [h]
    norm_num
  have hr7 : roundF64 (1 / 2 + d01) = 5404319552844595 / 2 ^ 53 := by
    have hrhe : roundHalfEvenPos ((1 / 2 + d01) * (2 : ℚ) ^ (52 + 1)) = 5404319552844595 :=
      roundHalfEvenPos_down _ 5404319552844595
        (by norm_num [d01]) (by norm_num [d01]) (by norm_num [d01])
    have h := roundF64_eval_small (1 / 2 + d01) 1 5404319552844595
      (by norm_num [d01]) (by norm_num [d01]) (by norm_num [d01])
      (by norm_num [d01]) (by norm_num [d01]) hrhe
    rw [h]
    norm_num
  have hr8 : roundF64 (5404319552844595 / 2 ^ 53 / ((3 : ℕ) : ℚ)) =
      7205759403792793 / 2 ^ 55 := by
    have hrhe : roundHalfEvenPos ((5404319552844595 / 2 ^ 53 / ((3 : ℕ) : ℚ)) * (2 : ℚ) ^ (52 + 3)) =
        7205759403792793 :=
      roundHalfEvenPos_down _ 7205759403792793
        (by norm_num) (by norm_num) (by norm_num)
    have h := roundF64_eval_small (5404319552844595 / 2 ^ 53 / ((3 : ℕ) : ℚ)) 3 7205759403792793
      (by norm_num) (by norm_num) (by norm_num) (by norm_num) (by norm_num) hrhe
    rw [h]
    norm_num
  have e1 : [F64.num d01, F64.num d02, F64.num d03].foldl
      AggregatorData.add_average AggregatorData.new =
      AggregatorData.mk [F64.num d01, F64.num d02, F64.num d03] := by
    rw [show [F64.num d01, F64.num d02, F64.num d03].foldl
        AggregatorData.add_average AggregatorData.new =
      AggregatorData.mk ([F64.num d01, F64.num d02, F64.num d03].foldl
        AggregatorData.add_average AggregatorData.new).averages from rfl,
      foldl_add_average_values]
    simp [AggregatorData.new]
  have e2 : [F64.num d03, F64.num d02, F64.num d01].foldl
      AggregatorData.add_average AggregatorData.new =
      AggregatorData.mk [F64.num d03, F64.num d02, F64.num d01] := by
    rw [show [F64.num d03, F64.num d02, F64.num d01].foldl
        AggregatorData.add_average AggregatorData.new =
      AggregatorData.mk ([F64.num d03, F64.num d02, F64.num d01].foldl
        AggregatorData.add_average AggregatorData.new).averages from rfl,
      foldl_add_average_values]
    simp [AggregatorData.new]
  have hs1 : sumF64R [F64.num d01, F64.num d02, F64.num d03] =
      F64.num (5404319552844596 / 2 ^ 53) := by
    show F64.num (roundF64 (roundF64 (roundF64 (0 + d01) + d02) + d03)) = _
    rw [zero_add, hr1, hr2, hr3]
  have hs2 : sumF64R [F64.num d03, F64.num d02, F64.num d01] =
      F64.num (5404319552844595 / 2 ^ 53) := by
    show F64.num (roundF64 (roundF64 (roundF64 (0 + d03) + d02) + d01)) = _
    rw [zero_add, hr5, hr6, hr7]
  have hL : ([F64.num d01, F64.num d02, F64.num d03].foldl
      AggregatorData.add_average AggregatorData.new).calculate_final_aggregateR =
      F64.num (7205759403792795 / 2 ^ 55) := by
    rw [e1]
    show F64.divR (sumF64R [F64.num d01, F64.num d02, F64.num d03])
      (F64.num ((3 : ℕ) : ℚ)) = _
    rw [hs1]
    simp only [F64.divR]
    rw [if_neg (by norm_num), hr4]
  have hR : ([F64.num d03, F64.num d02, F64.num d01].foldl
      AggregatorData.add_average AggregatorData.new).calculate_final_aggregateR =
      F64.num (7205759403792793 / 2 ^ 55) := by
    rw [e2]
    show F64.divR (sumF64R [F64.num d03, F64.num d02, F64.num d01])
      (F64.num ((3 : ℕ) : ℚ)) = _
    rw [hs2]
    simp only [F64.divR]
    rw [if_neg (by norm_num), hr8]
  refine ⟨by simpa using ([F64.num d01, F64.num d02, F64.num d03].reverse_perm).symm, ?_⟩
  rw [hL, hR]
  intro hcontra
  rw [F64.num.injEq] at hcontra
  norm_num at hcontra
